import Mathlib

/-!
# Verification of the LP constraint-model generator in `optimisation.py`

This file gives a shallow embedding of the subset/clique enumeration, the
fractional-clique-cover LP model, the Shannon-entropy (polymatroid) LP model,
the graph loading routine, the main-loop state handling and the
`limit_denominator` rational post-processing of the program, and proves or
refutes the specification claims about them.

Python iteration constructs are translated to `List` operations; Python
`Fraction` values become `ℚ`; Python integers become `ℤ`/`ℕ`.
-/

namespace Optimisation

/-- `combinations k xs` models `itertools.combinations(xs, k)`: all length-`k`
subsequences of `xs`, in the order itertools produces them (elements in the
order they appear in `xs`, tuples in lexicographic order of positions). -/
def combinations : ℕ → List ℕ → List (List ℕ)
  | 0, _ => [[]]
  | _ + 1, [] => []
  | k + 1, x :: xs => (combinations k xs).map (fun t => x :: t) ++ combinations (k + 1) xs

/-- `subsetsList nodes` models the subset-key enumeration
`for L in range(0, len(G.nodes)+1): for subset in itertools.combinations(G.nodes, L)`
that builds the `xs` dictionary in both `fractional_clique_cover` and
`shannon_entropy`. -/
def subsetsList (nodes : List ℕ) : List (List ℕ) :=
  (List.range (nodes.length + 1)).flatMap fun L => combinations L nodes

theorem mem_combinations {k : ℕ} {xs t : List ℕ} :
    t ∈ combinations k xs ↔ t.Sublist xs ∧ t.length = k := by
  induction xs generalizing k t with
  | nil =>
    cases k with
    | zero =>
      constructor
      · intro h
        simp only [combinations, List.mem_singleton] at h
        subst h
        exact ⟨List.Sublist.refl _, rfl⟩
      · rintro ⟨h1, -⟩
        simp [combinations, List.sublist_nil.mp h1]
    | succ k =>
      constructor
      · intro h
        simp [combinations] at h
      · rintro ⟨h1, h2⟩
        rw [List.sublist_nil.mp h1] at h2
        simp at h2
  | cons x xs ih =>
    cases k with
    | zero =>
      constructor
      · intro h
        simp only [combinations, List.mem_singleton] at h
        subst h
        exact ⟨List.nil_sublist _, rfl⟩
      · rintro ⟨-, h2⟩
        simp [combinations, List.length_eq_zero.mp h2]
    | succ k =>
      simp only [combinations, List.mem_append, List.mem_map]
      constructor
      · rintro (⟨s, hs, rfl⟩ | h)
        · obtain ⟨h1, h2⟩ := ih.mp hs
          exact ⟨List.cons_sublist_cons.mpr h1, by simp [h2]⟩
        · obtain ⟨h1, h2⟩ := ih.mp h
          exact ⟨h1.trans (List.sublist_cons_self x xs), h2⟩
      · rintro ⟨h1, h2⟩
        cases h1 with
        | cons a h => exact Or.inr (ih.mpr ⟨h, h2⟩)
        | cons₂ a h =>
          exact Or.inl ⟨_, ih.mpr ⟨h, by simpa using h2⟩, rfl⟩

theorem length_of_mem_combinations {k : ℕ} {xs t : List ℕ}
    (h : t ∈ combinations k xs) : t.length = k :=
  (mem_combinations.mp h).2

theorem mem_subsetsList {nodes t : List ℕ} :
    t ∈ subsetsList nodes ↔ t.Sublist nodes := by
  simp only [subsetsList, List.mem_flatMap, List.mem_range]
  constructor
  · rintro ⟨L, -, h⟩
    exact (mem_combinations.mp h).1
  · intro h
    exact ⟨t.length, Nat.lt_succ_of_le h.length_le, mem_combinations.mpr ⟨h, rfl⟩⟩

theorem length_combinations (k : ℕ) (xs : List ℕ) :
    (combinations k xs).length = xs.length.choose k := by
  induction xs generalizing k with
  | nil => cases k <;> simp [combinations]
  | cons x xs ih =>
    cases k with
    | zero => simp [combinations]
    | succ k =>
      simp [combinations, ih, Nat.choose_succ_succ, Nat.add_comm]

theorem nodup_combinations {k : ℕ} {xs : List ℕ} (h : xs.Nodup) :
    (combinations k xs).Nodup := by
  induction xs generalizing k with
  | nil => cases k <;> simp [combinations]
  | cons x xs ih =>
    cases k with
    | zero => simp [combinations]
    | succ k =>
      have hx : x ∉ xs := (List.nodup_cons.mp h).1
      have hxs : xs.Nodup := (List.nodup_cons.mp h).2
      simp only [combinations]
      refine List.Nodup.append ?_ (ih hxs) ?_
      · exact (ih hxs).map fun a b hab => by injection hab
      · intro t ht ht'
        obtain ⟨s, -, rfl⟩ := List.mem_map.mp ht
        have : (x :: s).Sublist xs := (mem_combinations.mp ht').1
        exact hx (this.subset (List.mem_cons_self x s))

theorem nodup_subsetsList {nodes : List ℕ} (h : nodes.Nodup) :
    (subsetsList nodes).Nodup := by
  refine List.nodup_flatMap.mpr ⟨fun L _ => nodup_combinations h, ?_⟩
  refine (List.pairwise_lt_range _).imp ?_
  intro L₁ L₂ hlt t ht₁ ht₂
  have h₁ := length_of_mem_combinations ht₁
  have h₂ := length_of_mem_combinations ht₂
  omega

theorem length_subsetsList (nodes : List ℕ) :
    (subsetsList nodes).length = 2 ^ nodes.length := by
  rw [subsetsList, List.length_flatMap]
  simp only [Function.comp_def, length_combinations]
  rw [← Nat.sum_range_choose nodes.length]
  rfl

theorem pairwise_length_subsetsList (nodes : List ℕ) :
    (subsetsList nodes).Pairwise fun a b => a.length ≤ b.length := by
  rw [subsetsList, List.flatMap_def, List.pairwise_flatten]
  constructor
  · intro l hl
    obtain ⟨L, -, rfl⟩ := List.mem_map.mp hl
    refine List.pairwise_of_forall_mem_list ?_
    intro a ha b hb
    rw [length_of_mem_combinations ha, length_of_mem_combinations hb]
  · rw [List.pairwise_map]
    refine (List.pairwise_lt_range _).imp ?_
    intro L₁ L₂ hlt a ha b hb
    rw [length_of_mem_combinations ha, length_of_mem_combinations hb]
    omega

/-- If a key has strictly smaller length than another, it appears strictly
earlier in the subset enumeration (the enumeration goes size by size). -/
theorem index_lt_of_length_lt {nodes : List ℕ} {i j : ℕ}
    (hi : i < (subsetsList nodes).length) (hj : j < (subsetsList nodes).length)
    (hlen : ((subsetsList nodes).get ⟨i, hi⟩).length < ((subsetsList nodes).get ⟨j, hj⟩).length) :
    i < j := by
  rcases Nat.lt_or_ge i j with h | h
  · exact h
  exfalso
  rcases Nat.eq_or_lt_of_le h with heq | hji
  · subst heq
    exact absurd hlen (lt_irrefl _)
  · have := List.pairwise_iff_get.mp (pairwise_length_subsetsList nodes) ⟨j, hj⟩ ⟨i, hi⟩ hji
    omega

/-- `sortKey` models Python's `list.sort()` / `tuple(sorted(...))` canonical
key normalisation used before every subset lookup. -/
def sortKey (l : List ℕ) : List ℕ := List.insertionSort (· ≤ ·) l

theorem sortKey_perm (l : List ℕ) : (sortKey l).Perm l :=
  List.perm_insertionSort _ l

theorem sortKey_sorted (l : List ℕ) : List.Sorted (· ≤ ·) (sortKey l) :=
  List.sorted_insertionSort _ l

/-- Set-equal lists normalise to the identical key, whatever order their
elements were produced in. -/
theorem sortKey_eq_of_perm {l₁ l₂ : List ℕ} (h : l₁.Perm l₂) :
    sortKey l₁ = sortKey l₂ :=
  List.eq_of_perm_of_sorted ((sortKey_perm l₁).trans (h.trans (sortKey_perm l₂).symm))
    (sortKey_sorted l₁) (sortKey_sorted l₂)

theorem sortKey_eq_self {l : List ℕ} (h : List.Sorted (· ≤ ·) l) :
    sortKey l = l :=
  h.insertionSort_eq

/-- The graph data model: `networkx.Graph` as consumed by the program.
`nodes` is the node list in insertion order; `edges` the stored edge list. -/
structure GraphM where
  nodes : List ℕ
  edges : List (ℕ × ℕ)

/-- Undirected adjacency test, models `networkx` edge lookup. -/
def GraphM.adj (G : GraphM) (u v : ℕ) : Bool :=
  G.edges.any fun e => (e.1 = u ∧ e.2 = v) ∨ (e.1 = v ∧ e.2 = u)

theorem GraphM.adj_comm (G : GraphM) (u v : ℕ) : G.adj u v = G.adj v u := by
  simp only [GraphM.adj]
  apply Bool.eq_iff_iff.mpr
  simp only [List.any_eq_true, decide_eq_true_eq]
  constructor <;> rintro ⟨e, he, h⟩ <;> exact ⟨e, he, by tauto⟩

/-- `G.neighbors v` models `list(G.neighbors(vertex))`: the nodes adjacent
to `v`, in node order. -/
def GraphM.neighbors (G : GraphM) (v : ℕ) : List ℕ :=
  G.nodes.filter fun u => G.adj v u

/-- `isCliqueB G c` holds iff the vertices of `c` are pairwise adjacent
(the empty list and singletons are cliques degenerately). -/
def isCliqueB (G : GraphM) : List ℕ → Bool
  | [] => true
  | v :: rest => (rest.all fun u => G.adj v u) && isCliqueB G rest

/-- Models the external library call `nx.enumerate_all_cliques(G)` (line 16).
The networkx routine yields every nonempty clique of the graph exactly once,
as node tuples in the canonical node order, sizes nondecreasing; it never
yields the empty tuple.  We enumerate the same collection by filtering the
subset enumeration; the program only iterates and membership-tests the
result, so the residual ordering difference is immaterial. -/
def cliquesList (G : GraphM) : List (List ℕ) :=
  (subsetsList G.nodes).filter fun c => !c.isEmpty && isCliqueB G c

/-- The cliques containing a vertex `v`: models the
`cliques_containing_v` accumulation loop (lines 32-35). -/
def cliquesContaining (G : GraphM) (v : ℕ) : List (List ℕ) :=
  (cliquesList G).filter fun c => v ∈ c

/-- Comparison relation of one linear constraint. -/
inductive CRel
  | le
  | ge
  | eq
deriving DecidableEq

/-- One linear constraint of an LP model: terms (variable key, coefficient),
a comparison and a right-hand-side constant. -/
structure LinCon where
  terms : List (List ℕ × ℚ)
  rel : CRel
  rhs : ℚ

/-- Objective terms of the cover LP: `lpSum(lp_xs)` sums every subset
variable with coefficient 1 (line 25), minimised. -/
def fccObjectiveTerms (G : GraphM) : List (List ℕ × ℚ) :=
  (subsetsList G.nodes).map fun k => (k, 1)

/-- The constraint list of the cover LP: one covering constraint per vertex,
`lpSum(lp_xs[tuple(x)] for x in cliques_containing_v) >= 1` (lines 31-38). -/
def fccConstraints (G : GraphM) : List LinCon :=
  G.nodes.map fun v => ⟨(cliquesContaining G v).map fun c => (c, 1), CRel.ge, 1⟩

/-- Value of a linear term list under an assignment of the subset variables. -/
def termsSum (x : List ℕ → ℚ) (ts : List (List ℕ × ℚ)) : ℚ :=
  (ts.map fun t => t.2 * x t.1).sum

/-- Satisfaction of one linear constraint. -/
def satLinCon (x : List ℕ → ℚ) (c : LinCon) : Prop :=
  match c.rel with
  | .le => termsSum x c.terms ≤ c.rhs
  | .ge => c.rhs ≤ termsSum x c.terms
  | .eq => termsSum x c.terms = c.rhs

instance (x : List ℕ → ℚ) (c : LinCon) : Decidable (satLinCon x c) := by
  rcases c with ⟨ts, r, rhs⟩
  cases r
  · exact inferInstanceAs (Decidable (_ ≤ _))
  · exact inferInstanceAs (Decidable (_ ≤ _))
  · exact inferInstanceAs (Decidable (_ = _))

/-- Feasibility for the cover LP: all emitted constraints plus the variable
lower bounds (`lowBound=0`, line 22). -/
def fccFeasible (G : GraphM) (x : List ℕ → ℚ) : Prop :=
  (∀ c ∈ fccConstraints G, satLinCon x c) ∧ ∀ k ∈ subsetsList G.nodes, 0 ≤ x k

instance (G : GraphM) (x : List ℕ → ℚ) : Decidable (fccFeasible G x) := by
  unfold fccFeasible
  infer_instance

/-- `set(S).issubset(T)` (line 99). -/
def issubsetB (S T : List ℕ) : Bool := S.all fun a => a ∈ T

/-- `tuple(sorted(set(S + T)))`: the canonical key of the union
(lines 102 and 104). -/
def unionKey (S T : List ℕ) : List ℕ := sortKey ((S ++ T).dedup)

/-- `tuple(sorted([val for val in S if val in T]))`: the canonical key of the
intersection (lines 103 and 105). -/
def interKey (S T : List ℕ) : List ℕ := sortKey (S.filter fun a => a ∈ T)

/-- The subset-variable keys of either LP, in dictionary order. -/
def keysOf (G : GraphM) : List (List ℕ) := subsetsList G.nodes

/-- `tuple(list(xs.keys())[-1])`: the last subset key, i.e. the objective
variable of the entropy LP (line 70). -/
def fullKey (G : GraphM) : List ℕ := (keysOf G).getLastD []

/-- Sorted neighbourhood key `tuple(N_v)` (lines 83, 87). -/
def NvKey (G : GraphM) (v : ℕ) : List ℕ := sortKey (G.neighbors v)

/-- Sorted closed-neighbourhood key `tuple(N_v_u_v)` (lines 84-88). -/
def NvvKey (G : GraphM) (v : ℕ) : List ℕ := sortKey (G.neighbors v ++ [v])

/-- The constraint the entropy model emits for an ordered subset pair
`(S, T)`: monotonicity when `S ⊆ T` (line 100), submodularity otherwise
(line 106).  The two `if` branches of the source are mutually exclusive. -/
def pairProp (x : List ℕ → ℚ) (S T : List ℕ) : Prop :=
  if issubsetB S T then 0 ≤ x T - x S
  else 0 ≤ x S + x T - x (unionKey S T) - x (interKey S T)

instance (x : List ℕ → ℚ) (S T : List ℕ) : Decidable (pairProp x S T) := by
  unfold pairProp
  infer_instance

/-- Feasibility for the entropy LP of `shannon_entropy` (lines 56-106):
normalisation (line 74), singleton bounds (lines 77-79), local functional
dependency (lines 82-89), the pair loop over `x in range(len(xs)-2)`,
`y in range(x+1, len(xs)-1)` (lines 94-106), and the variable lower bounds
(`lowBound=0`, line 67). -/
def entropyFeasible (G : GraphM) (x : List ℕ → ℚ) : Prop :=
  x [] = 0
  ∧ (∀ k ∈ keysOf G, k.length = 1 → x k ≤ 1)
  ∧ (∀ v ∈ G.nodes, x (NvvKey G v) = x (NvKey G v))
  ∧ (∀ i ∈ List.range ((keysOf G).length - 2),
      ∀ j ∈ List.range' (i + 1) ((keysOf G).length - 2 - i),
        pairProp x ((keysOf G).getD i []) ((keysOf G).getD j []))
  ∧ (∀ k ∈ keysOf G, 0 ≤ x k)

instance (G : GraphM) (x : List ℕ → ℚ) : Decidable (entropyFeasible G x) := by
  unfold entropyFeasible
  infer_instance

/-- An optimal solution of the entropy LP: a feasible assignment whose
objective value `x(fullKey)` is maximal, which is what the solver reports
together with the `optimal` status. -/
def entropyOptimal (G : GraphM) (x : List ℕ → ℚ) : Prop :=
  entropyFeasible G x ∧ ∀ y, entropyFeasible G y → y (fullKey G) ≤ x (fullKey G)

/-- The complete bipartite graph `K_{2,3}` with parts `{0,4}` and `{1,2,3}`. -/
def G23 : GraphM :=
  ⟨[0, 1, 2, 3, 4], [(0, 1), (0, 2), (0, 3), (1, 4), (2, 4), (3, 4)]⟩

/-- Integer mirror of `pairProp`, used to evaluate concrete feasibility
checks after clearing the common denominator. -/
def pairPropZ (w : List ℕ → ℤ) (S T : List ℕ) : Prop :=
  if issubsetB S T then 0 ≤ w T - w S
  else 0 ≤ w S + w T - w (unionKey S T) - w (interKey S T)

instance (w : List ℕ → ℤ) (S T : List ℕ) : Decidable (pairPropZ w S T) := by
  unfold pairPropZ
  infer_instance

/-- Integer mirror of `entropyFeasible` for an assignment whose values are
`w k / D`. -/
def entropyFeasibleZ (G : GraphM) (w : List ℕ → ℤ) (D : ℤ) : Prop :=
  w [] = 0
  ∧ (∀ k ∈ keysOf G, k.length = 1 → w k ≤ D)
  ∧ (∀ v ∈ G.nodes, w (NvvKey G v) = w (NvKey G v))
  ∧ (∀ i ∈ List.range ((keysOf G).length - 2),
      ∀ j ∈ List.range' (i + 1) ((keysOf G).length - 2 - i),
        pairPropZ w ((keysOf G).getD i []) ((keysOf G).getD j []))
  ∧ (∀ k ∈ keysOf G, 0 ≤ w k)

instance (G : GraphM) (w : List ℕ → ℤ) (D : ℤ) :
    Decidable (entropyFeasibleZ G w D) := by
  unfold entropyFeasibleZ
  infer_instance

theorem div_cast_nonneg_iff {D : ℤ} (hD : 0 < D) (c : ℤ) :
    0 ≤ (c : ℚ) / (D : ℚ) ↔ 0 ≤ c := by
  have hD' : (0 : ℚ) < (D : ℚ) := by exact_mod_cast hD
  rw [le_div_iff₀ hD', zero_mul]
  exact_mod_cast Iff.rfl

theorem div_cast_eq_zero_iff {D : ℤ} (hD : 0 < D) (c : ℤ) :
    (c : ℚ) / (D : ℚ) = 0 ↔ c = 0 := by
  have hD' : ((D : ℚ)) ≠ 0 := by exact_mod_cast hD.ne'
  rw [div_eq_zero_iff]
  simp [hD']

theorem div_cast_le_one_iff {D : ℤ} (hD : 0 < D) (c : ℤ) :
    (c : ℚ) / (D : ℚ) ≤ 1 ↔ c ≤ D := by
  have hD' : (0 : ℚ) < (D : ℚ) := by exact_mod_cast hD
  rw [div_le_one hD']
  exact_mod_cast Iff.rfl

theorem div_cast_eq_iff {D : ℤ} (hD : 0 < D) (c d : ℤ) :
    (c : ℚ) / (D : ℚ) = (d : ℚ) / (D : ℚ) ↔ c = d := by
  have hD' : ((D : ℚ)) ≠ 0 := by
    exact_mod_cast hD.ne'
  rw [div_eq_div_iff hD' hD']
  constructor
  · intro h
    exact_mod_cast mul_right_cancel₀ hD' h
  · intro h
    rw [h]

theorem pairProp_div_iff {D : ℤ} (hD : 0 < D) (w : List ℕ → ℤ)
    (S T : List ℕ) :
    pairProp (fun k => (w k : ℚ) / (D : ℚ)) S T ↔ pairPropZ w S T := by
  cases h : issubsetB S T with
  | true =>
    simp only [pairProp, pairPropZ, h, if_true]
    rw [div_sub_div_same,
      show ((w T : ℚ) - (w S : ℚ)) = ((w T - w S : ℤ) : ℚ) by push_cast; ring]
    exact div_cast_nonneg_iff hD _
  | false =>
    simp only [pairProp, pairPropZ, h, Bool.false_eq_true, if_false]
    rw [show ((w S : ℚ) / (D : ℚ) + (w T : ℚ) / (D : ℚ)
          - (w (unionKey S T) : ℚ) / (D : ℚ) - (w (interKey S T) : ℚ) / (D : ℚ))
        = ((w S + w T - w (unionKey S T) - w (interKey S T) : ℤ) : ℚ) / (D : ℚ) by
      push_cast; ring]
    exact div_cast_nonneg_iff hD _

/-- Feasibility of a common-denominator assignment reduces to its integer
mirror. -/
theorem entropyFeasible_div_iff (G : GraphM) (w : List ℕ → ℤ) (D : ℤ)
    (hD : 0 < D) :
    entropyFeasible G (fun k => (w k : ℚ) / (D : ℚ)) ↔ entropyFeasibleZ G w D := by
  unfold entropyFeasible entropyFeasibleZ
  refine and_congr (div_cast_eq_zero_iff hD _) ?_
  refine and_congr ?_ ?_
  · exact forall₂_congr fun k _ => imp_congr Iff.rfl (div_cast_le_one_iff hD _)
  refine and_congr ?_ ?_
  · exact forall₂_congr fun v _ => div_cast_eq_iff hD _ _
  refine and_congr ?_ ?_
  · exact forall₂_congr fun i _ => forall₂_congr fun j _ => pairProp_div_iff hD _ _ _
  · exact forall₂_congr fun k _ => div_cast_nonneg_iff hD _

/-- Twice the violating feasible point of the entropy LP on `K_{2,3}`:
the value depends only on how many of `{1,2,3}` and how many of `{0,4}` a
subset contains. -/
def entWitnessZ : List ℕ → ℤ := fun k =>
  match (k.filter fun a => a ∈ ([1, 2, 3] : List ℕ)).length,
      (k.filter fun a => a ∈ ([0, 4] : List ℕ)).length with
  | 0, 0 => 0
  | 1, 0 => 2
  | 2, 0 => 4
  | 3, 0 => 5
  | 0, 1 => 2
  | 1, 1 => 3
  | 2, 1 => 4
  | 3, 1 => 5
  | _, _ => 4

/-- A feasible point of the entropy LP on `K_{2,3}` whose objective value 2
is maximal although the variable of `{1,2,3,4}` holds the larger value 5/2. -/
def entWitnessK23 : List ℕ → ℚ := fun k => (entWitnessZ k : ℚ) / (2 : ℚ)

set_option maxHeartbeats 1000000 in
theorem entWitnessK23_feasible : entropyFeasible G23 entWitnessK23 :=
  (entropyFeasible_div_iff G23 entWitnessZ 2 (by decide)).mpr (by decide)

/-- Dual certificate: every feasible point of the entropy LP on `K_{2,3}`
has objective value at most 2, by chaining the emitted submodularity
constraints for the pairs `({0,1,4},{0,2,3,4})`, `({0,2,4},{0,3,4})` and
`({0},{4})` with the local-dependency equalities at vertices 1, 2, 3, the
normalisation and the two singleton bounds. -/
theorem entropy_value_bound_G23 (y : List ℕ → ℚ)
    (hy : entropyFeasible G23 y) : y (fullKey G23) ≤ 2 := by
  obtain ⟨h1, h2, h3, h4, h5⟩ := hy
  have hc1 : y (NvvKey G23 1) = y (NvKey G23 1) := h3 1 (by decide)
  have hc2 : y (NvvKey G23 2) = y (NvKey G23 2) := h3 2 (by decide)
  have hc3 : y (NvvKey G23 3) = y (NvKey G23 3) := h3 3 (by decide)
  rw [show NvvKey G23 1 = [0, 1, 4] by decide, show NvKey G23 1 = [0, 4] by decide] at hc1
  rw [show NvvKey G23 2 = [0, 2, 4] by decide, show NvKey G23 2 = [0, 4] by decide] at hc2
  rw [show NvvKey G23 3 = [0, 3, 4] by decide, show NvKey G23 3 = [0, 4] by decide] at hc3
  have hp1 := h4 18 (by decide) 29 (by decide)
  have hp2 := h4 20 (by decide) 21 (by decide)
  have hp3 := h4 1 (by decide) 5 (by decide)
  rw [show (keysOf G23).getD 18 [] = [0, 1, 4] by decide,
    show (keysOf G23).getD 29 [] = [0, 2, 3, 4] by decide] at hp1
  rw [show (keysOf G23).getD 20 [] = [0, 2, 4] by decide,
    show (keysOf G23).getD 21 [] = [0, 3, 4] by decide] at hp2
  rw [show (keysOf G23).getD 1 [] = [0] by decide,
    show (keysOf G23).getD 5 [] = [4] by decide] at hp3
  rw [pairProp, show issubsetB [0, 1, 4] [0, 2, 3, 4] = false by decide] at hp1
  rw [pairProp, show issubsetB [0, 2, 4] [0, 3, 4] = false by decide] at hp2
  rw [pairProp, show issubsetB [0] [4] = false by decide] at hp3
  simp only [Bool.false_eq_true, if_false] at hp1 hp2 hp3
  rw [show unionKey [0, 1, 4] [0, 2, 3, 4] = [0, 1, 2, 3, 4] by decide,
    show interKey [0, 1, 4] [0, 2, 3, 4] = [0, 4] by decide] at hp1
  rw [show unionKey [0, 2, 4] [0, 3, 4] = [0, 2, 3, 4] by decide,
    show interKey [0, 2, 4] [0, 3, 4] = [0, 4] by decide] at hp2
  rw [show unionKey [0] [4] = [0, 4] by decide,
    show interKey [0] [4] = [] by decide] at hp3
  have hs0 : y [0] ≤ 1 := h2 [0] (by decide) (by decide)
  have hs4 : y [4] ≤ 1 := h2 [4] (by decide) (by decide)
  rw [show fullKey G23 = [0, 1, 2, 3, 4] by decide]
  linarith

theorem entWitnessK23_optimal : entropyOptimal G23 entWitnessK23 := by
  refine ⟨entWitnessK23_feasible, fun y hy => ?_⟩
  have hb := entropy_value_bound_G23 y hy
  have hv : entWitnessK23 (fullKey G23) = 2 := by
    rw [show fullKey G23 = [0, 1, 2, 3, 4] by decide]
    rw [show entWitnessK23 [0, 1, 2, 3, 4] = (entWitnessZ [0, 1, 2, 3, 4] : ℚ) / 2 from rfl,
      show entWitnessZ [0, 1, 2, 3, 4] = 4 by decide]
    norm_num
  rw [hv]
  exact hb

theorem issubsetB_iff {S T : List ℕ} : issubsetB S T = true ↔ S ⊆ T := by
  simp [issubsetB, List.all_eq_true, List.subset_def]

theorem sorted_of_mem_subsetsList {nodes k : List ℕ}
    (h : List.Sorted (· < ·) nodes) (hk : k ∈ subsetsList nodes) :
    List.Sorted (· < ·) k :=
  List.Pairwise.sublist (mem_subsetsList.mp hk) h

theorem length_lt_of_ssubset {nodes S T : List ℕ} (h : List.Sorted (· < ·) nodes)
    (hS : S ∈ subsetsList nodes) (hT : T ∈ subsetsList nodes)
    (hsub : S ⊆ T) (hne : S ≠ T) : S.length < T.length := by
  have hSs := sorted_of_mem_subsetsList h hS
  have hTs := sorted_of_mem_subsetsList h hT
  have hsp : S.Subperm T := List.subperm_of_subset hSs.nodup hsub
  rcases Nat.lt_or_ge S.length T.length with hl | hl
  · exact hl
  · exfalso
    have hSle : List.Sorted (fun a b : ℕ => a ≤ b) S := hSs.imp fun hab => le_of_lt hab
    have hTle : List.Sorted (fun a b : ℕ => a ≤ b) T := hTs.imp fun hab => le_of_lt hab
    exact hne (List.eq_of_perm_of_sorted (hsp.perm_of_length_le hl) hSle hTle)

theorem keysOf_ne_nil (G : GraphM) : keysOf G ≠ [] :=
  List.ne_nil_of_mem (mem_subsetsList.mpr (List.nil_sublist G.nodes))

theorem getLastD_eq_getElem_length_sub_one {l : List (List ℕ)} (h : l ≠ [])
    (hlt : l.length - 1 < l.length) : l.getLastD [] = l[l.length - 1] := by
  cases l with
  | nil => exact absurd rfl h
  | cons x xs =>
    rw [show (x :: xs).getLastD [] = (x :: xs).getLast (by simp) from rfl,
      List.getLast_eq_getElem]

/-- Monotonicity holds in any feasible assignment for every subset pair
`S ⊆ T` with `T` not the full (last) subset: the pair loop emits the
monotonicity constraint for exactly that pair. -/
theorem entropy_mono_of_feasible (G : GraphM)
    (hsort : List.Sorted (· < ·) G.nodes) (y : List ℕ → ℚ)
    (hy : entropyFeasible G y) {S T : List ℕ}
    (hS : S ∈ keysOf G) (hT : T ∈ keysOf G) (hsub : S ⊆ T) (hne : S ≠ T)
    (hTfull : T ≠ fullKey G) : y S ≤ y T := by
  obtain ⟨-, -, -, h4, -⟩ := hy
  obtain ⟨i, hi, hSi⟩ := List.mem_iff_getElem.mp hS
  obtain ⟨j, hj, hTj⟩ := List.mem_iff_getElem.mp hT
  have hi' : i < (keysOf G).length := hi
  have hj' : j < (keysOf G).length := hj
  have hlen : S.length < T.length := length_lt_of_ssubset hsort hS hT hsub hne
  have hij : i < j := by
    refine @index_lt_of_length_lt G.nodes i j hi hj ?_
    rw [List.get_eq_getElem, List.get_eq_getElem]
    rw [show (subsetsList G.nodes)[i] = S from hSi,
      show (subsetsList G.nodes)[j] = T from hTj]
    exact hlen
  have hjlast : j < (keysOf G).length - 1 := by
    rcases Nat.lt_or_ge j ((keysOf G).length - 1) with hcase | hcase
    · exact hcase
    · exfalso
      have hjeq : j = (keysOf G).length - 1 := by omega
      refine hTfull ?_
      rw [← hTj, fullKey,
        getLastD_eq_getElem_length_sub_one (keysOf_ne_nil G) (by omega)]
      subst hjeq
      rfl
  have hp := h4 i (List.mem_range.mpr (by omega)) j
    (List.mem_range'_1.mpr ⟨by omega, by omega⟩)
  rw [List.getD_eq_getElem _ _ (by omega : i < (keysOf G).length),
    List.getD_eq_getElem _ _ (by omega : j < (keysOf G).length)] at hp
  rw [show (keysOf G)[i] = S from hSi, show (keysOf G)[j] = T from hTj] at hp
  rw [pairProp, if_pos (issubsetB_iff.mpr hsub)] at hp
  linarith

/-- C2 (amended): for every graph, if the entropy LP solve reports an
optimal solution, then for every pair of subsets `S ⊆ T` of the vertex set
with `T` different from the full vertex set, the solved value of `T` is at
least the solved value of `S`.  (For `T` the full vertex set the pair loop
emits no constraint and the property can fail.) -/
theorem entropy_postsolve_mono (G : GraphM)
    (hsort : List.Sorted (· < ·) G.nodes) (x : List ℕ → ℚ)
    (hx : entropyOptimal G x) {S T : List ℕ}
    (hS : S ∈ keysOf G) (hT : T ∈ keysOf G) (hsub : S ⊆ T)
    (hTfull : T ≠ fullKey G) : x S ≤ x T := by
  rcases eq_or_ne S T with rfl | hne
  · exact le_refl _
  · exact entropy_mono_of_feasible G hsort x hx.1 hS hT hsub hne hTfull

theorem entropy_postsolve_mono_witness :
    entWitnessK23 [0] ≤ entWitnessK23 [0, 4] :=
  entropy_postsolve_mono G23 (by decide) entWitnessK23 entWitnessK23_optimal
    (by decide) (by decide)
    (by
      intro a ha
      rw [List.mem_singleton] at ha
      subst ha
      exact List.mem_cons_self 0 [4])
    (by decide)

/-- C2 counterexample: on the complete bipartite graph `K_{2,3}` the
assignment `entWitnessK23` is an optimal solution of the emitted entropy LP
(objective value 2), yet the subset `{1,2,3,4}` of the vertex set — a
subset of the full vertex set — is assigned the value 5/2, strictly more
than the full vertex set itself: post-solve monotonicity fails on the pair
`(S, T) = ({1,2,3,4}, V)`. -/
theorem entropy_postsolve_mono_counterexample :
    entropyOptimal G23 entWitnessK23
    ∧ [1, 2, 3, 4] ∈ keysOf G23
    ∧ fullKey G23 ∈ keysOf G23
    ∧ [1, 2, 3, 4] ⊆ fullKey G23
    ∧ entWitnessK23 (fullKey G23) < entWitnessK23 [1, 2, 3, 4] := by
  refine ⟨entWitnessK23_optimal, by decide, by decide, ?_, ?_⟩
  · rw [show fullKey G23 = [0, 1, 2, 3, 4] by decide]
    intro a ha
    fin_cases ha <;> decide
  · have e1 : entWitnessK23 (fullKey G23) = ((entWitnessZ (fullKey G23) : ℤ) : ℚ) / 2 := rfl
    have e2 : entWitnessK23 [1, 2, 3, 4] = ((entWitnessZ [1, 2, 3, 4] : ℤ) : ℚ) / 2 := rfl
    rw [e1, e2, show entWitnessZ (fullKey G23) = 4 by decide,
      show entWitnessZ [1, 2, 3, 4] = 5 by decide]
    norm_num

/-- The ordered index pairs `(x, y)` visited by the entropy pair loop
`for x in range(len(xs)-2): for y in range(x+1, len(xs)-1)` (lines 94-96). -/
def emittedPairs (keys : List (List ℕ)) : List (ℕ × ℕ) :=
  (List.range (keys.length - 2)).flatMap fun i =>
    (List.range' (i + 1) (keys.length - 2 - i)).map fun j => (i, j)

theorem mem_emittedPairs {keys : List (List ℕ)} {p : ℕ × ℕ} :
    p ∈ emittedPairs keys ↔ p.1 < p.2 ∧ p.2 < keys.length - 1 := by
  rcases p with ⟨i, j⟩
  simp only [emittedPairs, List.mem_flatMap, List.mem_map, List.mem_range,
    List.mem_range'_1, Prod.mk.injEq]
  constructor
  · rintro ⟨a, ha, b, ⟨hb1, hb2⟩, rfl, rfl⟩
    exact ⟨by omega, by omega⟩
  · rintro ⟨h1, h2⟩
    exact ⟨i, by omega, j, ⟨by omega, by omega⟩, rfl, rfl⟩

theorem nodup_emittedPairs (keys : List (List ℕ)) : (emittedPairs keys).Nodup := by
  refine List.nodup_flatMap.mpr ⟨?_, ?_⟩
  · intro i _
    refine List.Nodup.map ?_ (List.nodup_range' ..)
    intro a b hab
    injection hab
  · refine (List.pairwise_lt_range _).imp ?_
    intro a b hab p hp1 hp2
    obtain ⟨_, -, rfl⟩ := List.mem_map.mp hp1
    obtain ⟨_, -, heq⟩ := List.mem_map.mp hp2
    injection heq with heq1 heq2
    omega

/-- An index pair of the pair loop matches the unordered subset pair
`{S, T}`. -/
def pairMatches (keys : List (List ℕ)) (S T : List ℕ) (p : ℕ × ℕ) : Prop :=
  (keys.getD p.1 [] = S ∧ keys.getD p.2 [] = T)
  ∨ (keys.getD p.1 [] = T ∧ keys.getD p.2 [] = S)

instance (keys : List (List ℕ)) (S T : List ℕ) (p : ℕ × ℕ) :
    Decidable (pairMatches keys S T p) := by
  unfold pairMatches
  infer_instance

/-- How many loop iterations emit a constraint for the unordered subset
pair `{S, T}`. -/
def pairCount (keys : List (List ℕ)) (S T : List ℕ) : ℕ :=
  (emittedPairs keys).countP fun p => decide (pairMatches keys S T p)

theorem countP_eq_one_of_unique {α : Type} {l : List α} {p : α → Bool}
    (hnd : l.Nodup) (a : α) (ha : a ∈ l) (hpa : p a = true)
    (huniq : ∀ b ∈ l, p b = true → b = a) : l.countP p = 1 := by
  rw [List.countP_eq_length_filter]
  rcases hfe : l.filter p with - | ⟨x, xs⟩
  · exfalso
    have hmem : a ∈ l.filter p := List.mem_filter.mpr ⟨ha, hpa⟩
    rw [hfe] at hmem
    simp at hmem
  · rcases xs with - | ⟨y, ys⟩
    · rfl
    · exfalso
      have hxm : x ∈ l.filter p := by rw [hfe]; exact List.mem_cons_self _ _
      have hym : y ∈ l.filter p := by
        rw [hfe]
        exact List.mem_cons_of_mem _ (List.mem_cons_self _ _)
      have hx : x = a := huniq x (List.mem_filter.mp hxm).1 (List.mem_filter.mp hxm).2
      have hy : y = a := huniq y (List.mem_filter.mp hym).1 (List.mem_filter.mp hym).2
      have hnd' : (l.filter p).Nodup := hnd.filter p
      rw [hfe, List.nodup_cons] at hnd'
      exact hnd'.1 (by rw [hx, hy]; exact List.mem_cons_self _ _)

theorem pairCount_comm (keys : List (List ℕ)) (S T : List ℕ) :
    pairCount keys S T = pairCount keys T S := by
  unfold pairCount
  refine List.countP_congr ?_
  intro p hp
  simp only [decide_eq_true_eq]
  unfold pairMatches
  exact or_comm

theorem pairCount_eq_one {nodes : List ℕ} (hnodup : nodes.Nodup)
    {S T : List ℕ} {a b : ℕ}
    (ha : a < (subsetsList nodes).length) (hb : b < (subsetsList nodes).length)
    (haS : (subsetsList nodes)[a] = S) (hbT : (subsetsList nodes)[b] = T)
    (hab : a < b) (hblast : b < (subsetsList nodes).length - 1) :
    pairCount (subsetsList nodes) S T = 1 := by
  have hknd := nodup_subsetsList hnodup
  refine countP_eq_one_of_unique (nodup_emittedPairs _) (a, b) ?_ ?_ ?_
  · exact mem_emittedPairs.mpr ⟨hab, hblast⟩
  · rw [decide_eq_true_eq]
    exact Or.inl ⟨by rw [List.getD_eq_getElem _ _ ha]; exact haS,
      by rw [List.getD_eq_getElem _ _ hb]; exact hbT⟩
  · rintro ⟨c, d⟩ hcd hmatch
    rw [decide_eq_true_eq] at hmatch
    obtain ⟨hcd1, hcd2⟩ := mem_emittedPairs.mp hcd
    have hc : c < (subsetsList nodes).length := by omega
    have hd : d < (subsetsList nodes).length := by omega
    unfold pairMatches at hmatch
    rw [List.getD_eq_getElem _ _ hc, List.getD_eq_getElem _ _ hd] at hmatch
    rcases hmatch with ⟨h1, h2⟩ | ⟨h1, h2⟩
    · have hca : c = a := hknd.getElem_inj_iff.mp (by rw [h1, haS])
      have hdb : d = b := hknd.getElem_inj_iff.mp (by rw [h2, hbT])
      rw [hca, hdb]
    · exfalso
      have hcb : c = b := hknd.getElem_inj_iff.mp (by rw [h1, hbT])
      have hda : d = a := hknd.getElem_inj_iff.mp (by rw [h2, haS])
      omega

/-- C1 (amended): in the entropy model, for every unordered pair of distinct
subsets drawn from the 2^n subset space with neither member the final (full
vertex set) subset, exactly one constraint is emitted — monotonicity when
one is a subset of the other, submodularity otherwise — while every pair
involving the final subset is skipped by the loop bounds. -/
theorem entropy_pair_constraint_emission (nodes : List ℕ)
    (hsort : List.Sorted (· < ·) nodes) {S T : List ℕ}
    (hS : S ∈ subsetsList nodes) (hT : T ∈ subsetsList nodes) (hne : S ≠ T)
    (hSfull : S ≠ (subsetsList nodes).getLastD [])
    (hTfull : T ≠ (subsetsList nodes).getLastD []) :
    pairCount (subsetsList nodes) S T = 1
    ∧ (∀ p ∈ emittedPairs (subsetsList nodes),
        pairMatches (subsetsList nodes) S T p →
          (issubsetB ((subsetsList nodes).getD p.1 [])
              ((subsetsList nodes).getD p.2 []) = true ↔ S ⊆ T ∨ T ⊆ S))
    ∧ (∀ U ∈ subsetsList nodes,
        pairCount (subsetsList nodes) U ((subsetsList nodes).getLastD []) = 0) := by
  have hnodup := hsort.nodup
  have hknd := nodup_subsetsList hnodup
  have hnil : subsetsList nodes ≠ [] :=
    List.ne_nil_of_mem (mem_subsetsList.mpr (List.nil_sublist _))
  have hlenpos : 0 < (subsetsList nodes).length := List.length_pos.mpr hnil
  obtain ⟨a, ha, haS⟩ := List.mem_iff_getElem.mp hS
  obtain ⟨b, hb, hbT⟩ := List.mem_iff_getElem.mp hT
  have hfull : (subsetsList nodes).getLastD []
      = (subsetsList nodes)[(subsetsList nodes).length - 1] :=
    getLastD_eq_getElem_length_sub_one hnil (by omega)
  have halast : a ≠ (subsetsList nodes).length - 1 := by
    intro hcon
    subst hcon
    exact hSfull ((hfull.trans haS).symm)
  have hblast : b ≠ (subsetsList nodes).length - 1 := by
    intro hcon
    subst hcon
    exact hTfull ((hfull.trans hbT).symm)
  have hab0 : a ≠ b := by
    intro hcon
    subst hcon
    exact hne (haS.symm.trans hbT)
  refine ⟨?_, ?_, ?_⟩
  · rcases Nat.lt_or_ge a b with hab | hab
    · exact pairCount_eq_one hnodup ha hb haS hbT hab (by omega)
    · rw [pairCount_comm]
      exact pairCount_eq_one hnodup hb ha hbT haS (by omega) (by omega)
  · intro p hp hmatch
    obtain ⟨hp1, hp2⟩ := mem_emittedPairs.mp hp
    have hc : p.1 < (subsetsList nodes).length := by omega
    have hd : p.2 < (subsetsList nodes).length := by omega
    unfold pairMatches at hmatch
    rw [List.getD_eq_getElem _ _ hc, List.getD_eq_getElem _ _ hd]
    rw [List.getD_eq_getElem _ _ hc, List.getD_eq_getElem _ _ hd] at hmatch
    rcases hmatch with ⟨h1, h2⟩ | ⟨h1, h2⟩
    · have hca : p.1 = a := hknd.getElem_inj_iff.mp (by rw [h1, haS])
      have hdb : p.2 = b := hknd.getElem_inj_iff.mp (by rw [h2, hbT])
      rw [h1, h2]
      constructor
      · intro hss
        exact Or.inl (issubsetB_iff.mp hss)
      · rintro (hss | hss)
        · exact issubsetB_iff.mpr hss
        · exfalso
          have hlt : T.length < S.length :=
            length_lt_of_ssubset hsort hT hS hss (fun hcon => hne hcon.symm)
          have : b < a := by
            refine @index_lt_of_length_lt nodes b a hb ha ?_
            rw [List.get_eq_getElem, List.get_eq_getElem, haS, hbT]
            exact hlt
          omega
    · have hcb : p.1 = b := hknd.getElem_inj_iff.mp (by rw [h1, hbT])
      have hda : p.2 = a := hknd.getElem_inj_iff.mp (by rw [h2, haS])
      rw [h1, h2]
      constructor
      · intro hss
        exact Or.inr (issubsetB_iff.mp hss)
      · rintro (hss | hss)
        · exfalso
          have hlt : S.length < T.length :=
            length_lt_of_ssubset hsort hS hT hss hne
          have : a < b := by
            refine @index_lt_of_length_lt nodes a b ha hb ?_
            rw [List.get_eq_getElem, List.get_eq_getElem, haS, hbT]
            exact hlt
          omega
        · exact issubsetB_iff.mpr hss
  · intro U hU
    rw [pairCount, List.countP_eq_zero]
    intro p hp
    simp only [decide_eq_true_eq]
    intro hmatch
    obtain ⟨hp1, hp2⟩ := mem_emittedPairs.mp hp
    have hc : p.1 < (subsetsList nodes).length := by omega
    have hd : p.2 < (subsetsList nodes).length := by omega
    unfold pairMatches at hmatch
    rw [List.getD_eq_getElem _ _ hc, List.getD_eq_getElem _ _ hd] at hmatch
    rcases hmatch with ⟨h1, h2⟩ | ⟨h1, h2⟩
    · have : p.2 = (subsetsList nodes).length - 1 :=
        hknd.getElem_inj_iff.mp (by rw [h2, hfull])
      omega
    · have : p.1 = (subsetsList nodes).length - 1 :=
        hknd.getElem_inj_iff.mp (by rw [h1, hfull])
      omega

theorem entropy_pair_constraint_emission_witness :
    pairCount (subsetsList [0, 1]) [] [0] = 1
    ∧ (∀ p ∈ emittedPairs (subsetsList [0, 1]),
        pairMatches (subsetsList [0, 1]) [] [0] p →
          (issubsetB ((subsetsList [0, 1]).getD p.1 [])
              ((subsetsList [0, 1]).getD p.2 []) = true
            ↔ ([] : List ℕ) ⊆ [0] ∨ [0] ⊆ ([] : List ℕ)))
    ∧ (∀ U ∈ subsetsList [0, 1],
        pairCount (subsetsList [0, 1]) U ((subsetsList [0, 1]).getLastD []) = 0) :=
  entropy_pair_constraint_emission [0, 1] (by decide) (by decide) (by decide)
    (by decide) (by decide) (by decide)

/-- C1 counterexample: on a single-vertex graph the subset space is
`{∅, {0}}`, the pair `(∅, {0})` is an unordered pair of distinct subsets of
the space, yet the loop `for x in range(len(xs)-2)` is empty and emits no
constraint at all for it. -/
theorem entropy_pair_emission_counterexample :
    [] ∈ subsetsList [0] ∧ [0] ∈ subsetsList [0] ∧ ([] : List ℕ) ≠ [0]
    ∧ pairCount (subsetsList [0]) [] [0] = 0 := by
  refine ⟨by decide, by decide, by decide, by decide⟩

/-- C8: the subset space built before each LP contains exactly `2^n`
distinct subsets — one for every subset of the vertex set — each stored
under a sorted tuple key, and the sorted-key normalisation sends set-equal
subsets to the identical key regardless of construction order. -/
theorem subset_space_canonical (nodes : List ℕ)
    (hsort : List.Sorted (· < ·) nodes) :
    (subsetsList nodes).length = 2 ^ nodes.length
    ∧ (subsetsList nodes).Nodup
    ∧ (∀ k, k ∈ subsetsList nodes ↔ k.Sublist nodes)
    ∧ (∀ k ∈ subsetsList nodes, List.Sorted (· < ·) k)
    ∧ (∀ l₁ l₂ : List ℕ, l₁.Perm l₂ → sortKey l₁ = sortKey l₂)
    ∧ (∀ k ∈ subsetsList nodes, sortKey k = k) :=
  ⟨length_subsetsList nodes, nodup_subsetsList hsort.nodup,
    fun _ => mem_subsetsList, fun _ hk => sorted_of_mem_subsetsList hsort hk,
    fun _ _ h => sortKey_eq_of_perm h,
    fun _ hk => sortKey_eq_self
      ((sorted_of_mem_subsetsList hsort hk).imp fun hab => le_of_lt hab)⟩

theorem subset_space_canonical_witness :
    (subsetsList [0, 1, 2]).length = 2 ^ ([0, 1, 2] : List ℕ).length
    ∧ (subsetsList [0, 1, 2]).Nodup
    ∧ (∀ k, k ∈ subsetsList [0, 1, 2] ↔ k.Sublist [0, 1, 2])
    ∧ (∀ k ∈ subsetsList [0, 1, 2], List.Sorted (· < ·) k)
    ∧ (∀ l₁ l₂ : List ℕ, l₁.Perm l₂ → sortKey l₁ = sortKey l₂)
    ∧ (∀ k ∈ subsetsList [0, 1, 2], sortKey k = k) :=
  subset_space_canonical [0, 1, 2] (by decide)

/-- The path graph on vertices `{0, 1, 2}` with edges `(0,1)` and `(1,2)`. -/
def pathGraph3 : GraphM := ⟨[0, 1, 2], [(0, 1), (1, 2)]⟩

/-- C3 counterexample: on a single-vertex graph the clique enumeration
(`nx.enumerate_all_cliques`) does not include the empty clique, although
the claim (and the source comment at line 14) says it does. -/
theorem clique_enumeration_counterexample :
    [] ∉ cliquesList ⟨[0], []⟩ := by decide

/-- C3 (amended): the clique enumeration produces every nonempty clique of
the graph with no duplicates, including a clique for every singleton
vertex; the empty clique is not part of its output. -/
theorem clique_enumeration_complete (G : GraphM)
    (hsort : List.Sorted (· < ·) G.nodes) :
    (cliquesList G).Nodup
    ∧ (∀ c, c ∈ cliquesList G ↔ c.Sublist G.nodes ∧ c ≠ [] ∧ isCliqueB G c = true)
    ∧ (∀ v ∈ G.nodes, [v] ∈ cliquesList G)
    ∧ [] ∉ cliquesList G := by
  refine ⟨(nodup_subsetsList hsort.nodup).filter _, fun c => ?_, fun v hv => ?_, ?_⟩
  · rw [cliquesList, List.mem_filter, mem_subsetsList]
    constructor
    · rintro ⟨h1, h2⟩
      rw [Bool.and_eq_true, Bool.not_eq_true'] at h2
      refine ⟨h1, fun hcon => ?_, h2.2⟩
      rw [hcon] at h2
      exact absurd h2.1 (by simp)
    · rintro ⟨h1, h2, h3⟩
      refine ⟨h1, ?_⟩
      rw [Bool.and_eq_true, Bool.not_eq_true']
      refine ⟨?_, h3⟩
      cases c with
      | nil => exact absurd rfl h2
      | cons x xs => rfl
  · rw [cliquesList, List.mem_filter]
    refine ⟨mem_subsetsList.mpr (List.singleton_sublist.mpr hv), ?_⟩
    rfl
  · intro hmem
    rw [cliquesList, List.mem_filter] at hmem
    simp at hmem

theorem clique_enumeration_complete_witness :
    (cliquesList pathGraph3).Nodup
    ∧ (∀ c, c ∈ cliquesList pathGraph3 ↔
        c.Sublist pathGraph3.nodes ∧ c ≠ [] ∧ isCliqueB pathGraph3 c = true)
    ∧ (∀ v ∈ pathGraph3.nodes, [v] ∈ cliquesList pathGraph3)
    ∧ [] ∉ cliquesList pathGraph3 :=
  clique_enumeration_complete pathGraph3 (by decide)

/-- C4: the fractional clique cover model minimises the sum of the
variables of all `2^n` subsets (every subset key appears once with
coefficient 1 in the objective), and its constraint set is exactly one
`>= 1` constraint per vertex `v`, summing (with coefficient 1) the
variables of the cliques containing `v`; no constraint is an equality, so
no explicit equality constraints force non-clique variables to 0. -/
theorem fcc_model_structure (G : GraphM) :
    (fccObjectiveTerms G).map Prod.fst = subsetsList G.nodes
    ∧ (∀ t ∈ fccObjectiveTerms G, t.2 = 1)
    ∧ (fccConstraints G).length = G.nodes.length
    ∧ (∀ c ∈ fccConstraints G, c.rel = CRel.ge ∧ c.rhs = 1 ∧ c.rel ≠ CRel.eq)
    ∧ (∀ v ∈ G.nodes,
        (⟨(cliquesContaining G v).map fun cl => (cl, 1), CRel.ge, 1⟩ : LinCon)
          ∈ fccConstraints G)
    ∧ (∀ c ∈ fccConstraints G, ∃ v ∈ G.nodes,
        c = ⟨(cliquesContaining G v).map fun cl => (cl, 1), CRel.ge, 1⟩)
    ∧ (∀ v : ℕ, ∀ cl,
        cl ∈ cliquesContaining G v ↔ cl ∈ cliquesList G ∧ v ∈ cl) := by
  refine ⟨?_, ?_, ?_, ?_, ?_, ?_, ?_⟩
  · rw [fccObjectiveTerms, List.map_map]
    exact List.map_id _
  · intro t ht
    obtain ⟨k, -, rfl⟩ := List.mem_map.mp ht
    rfl
  · exact List.length_map _ _
  · intro c hc
    obtain ⟨v, -, rfl⟩ := List.mem_map.mp hc
    exact ⟨rfl, rfl, by simp⟩
  · intro v hv
    exact List.mem_map.mpr ⟨v, hv, rfl⟩
  · intro c hc
    obtain ⟨v, hv, rfl⟩ := List.mem_map.mp hc
    exact ⟨v, hv, rfl⟩
  · intro v cl
    rw [cliquesContaining, List.mem_filter]
    simp

/-- The all-singletons assignment: weight 1 on every singleton subset
variable and 0 elsewhere. -/
def allSingletons : List ℕ → ℚ := fun k => if k.length = 1 then 1 else 0

/-- C5: for every graph with at least one vertex, the assignment giving
weight 1 to every singleton subset variable and 0 to every other subset
variable satisfies every emitted covering constraint and all variable
lower bounds, so the cover model is feasible. -/
theorem fcc_allSingletons_feasible (G : GraphM) (hne : G.nodes ≠ []) :
    fccFeasible G allSingletons := by
  constructor
  · intro c hc
    obtain ⟨v, hv, rfl⟩ := List.mem_map.mp hc
    show (1 : ℚ) ≤ termsSum allSingletons ((cliquesContaining G v).map fun cl => (cl, 1))
    rw [termsSum, List.map_map]
    have hmem : [v] ∈ cliquesContaining G v := by
      rw [cliquesContaining, List.mem_filter]
      refine ⟨?_, by simp⟩
      rw [cliquesList, List.mem_filter]
      exact ⟨mem_subsetsList.mpr (List.singleton_sublist.mpr hv), rfl⟩
    have hnn : ∀ q ∈ (cliquesContaining G v).map
        ((fun t : List ℕ × ℚ => t.2 * allSingletons t.1) ∘ fun cl => (cl, (1 : ℚ))),
        (0 : ℚ) ≤ q := by
      intro q hq
      obtain ⟨cl, -, rfl⟩ := List.mem_map.mp hq
      show (0 : ℚ) ≤ 1 * (if cl.length = 1 then (1 : ℚ) else 0)
      split
      · norm_num
      · norm_num
    have hle := List.single_le_sum hnn _ (List.mem_map.mpr ⟨[v], hmem, rfl⟩)
    simpa [allSingletons] using hle
  · intro k hk
    show (0 : ℚ) ≤ if k.length = 1 then 1 else 0
    split
    · norm_num
    · norm_num

theorem fcc_allSingletons_feasible_witness :
    fccFeasible pathGraph3 allSingletons :=
  fcc_allSingletons_feasible pathGraph3 (by decide)

/-- The convergent loop of CPython's `Fraction.limit_denominator`
(`p0, q0, p1, q1 = 0, 1, 1, 0; while True: a = n//d; q2 = q0+a*q1;`
`if q2 > max_denominator: break; p0,q0,p1,q1 = p1,q1,p0+a*p1,q2;`
`n,d = d, n-a*d`).  For a positive divisor Python floor division agrees
with `Int.ediv`.  The `d ≤ 0` guard returns the state unchanged; it is
unreachable whenever the input denominator exceeds `max_denominator`
(established in `limitLoop_post`). -/
def limitLoop (maxD : ℤ) (p0 q0 p1 q1 n d : ℤ) : ℤ × ℤ × ℤ × ℤ × ℤ × ℤ :=
  if hd : 0 < d then
    if maxD < q0 + n / d * q1 then (p0, q0, p1, q1, n, d)
    else limitLoop maxD p1 q1 (p0 + n / d * p1) (q0 + n / d * q1) d (n - n / d * d)
  else (p0, q0, p1, q1, n, d)
termination_by d.toNat
decreasing_by
  have h1 : n - n / d * d = n % d := by
    rw [Int.emod_def]
    ring
  have h2 : 0 ≤ n % d := Int.emod_nonneg n (by omega)
  have h3 : n % d < d := Int.emod_lt_of_pos n hd
  rw [h1]
  omega

/-- Model of `Fraction.from_float(total).limit_denominator(100)` (lines 50
and 115): the float converts exactly to a rational, so the input is the
exact rational `x`.  `Fraction(a, b)` is exact rational division. -/
def limitDen (x : ℚ) (maxD : ℤ) : ℚ :=
  if maxD < 1 then x
  else if (x.den : ℤ) ≤ maxD then x
  else
    match limitLoop maxD 0 1 1 0 x.num (x.den : ℤ) with
    | (p0, q0, p1, q1, _, _) =>
      let k := (maxD - q0) / q1
      let b1 : ℚ := ((p0 + k * p1 : ℤ) : ℚ) / ((q0 + k * q1 : ℤ) : ℚ)
      let b2 : ℚ := ((p1 : ℤ) : ℚ) / ((q1 : ℤ) : ℚ)
      if |b2 - x| ≤ |b1 - x| then b2 else b1

/-- Loop invariant of `limitLoop` on input `x`: the state encodes the
continued-fraction expansion of `x`. -/
def LoopInv (x : ℚ) (maxD p0 q0 p1 q1 n d : ℤ) : Prop :=
  p1 * n + p0 * d = x.num
  ∧ q1 * n + q0 * d = (x.den : ℤ)
  ∧ (p1 * q0 - p0 * q1 = 1 ∨ p1 * q0 - p0 * q1 = -1)
  ∧ 0 ≤ q0 ∧ q0 ≤ maxD ∧ 0 ≤ q1 ∧ q1 ≤ maxD
  ∧ ((p0 = 0 ∧ q0 = 1 ∧ p1 = 1 ∧ q1 = 0 ∧ n = x.num ∧ d = (x.den : ℤ))
      ∨ (1 ≤ q1 ∧ (q0 = 0 → q1 = 1) ∧ 0 ≤ d ∧ d < n))

/-- What holds of the state returned by `limitLoop`. -/
def LoopPost (x : ℚ) (maxD : ℤ) : ℤ × ℤ × ℤ × ℤ × ℤ × ℤ → Prop :=
  fun s =>
    match s with
    | (p0, q0, p1, q1, n, d) =>
      p1 * n + p0 * d = x.num
      ∧ q1 * n + q0 * d = (x.den : ℤ)
      ∧ (p1 * q0 - p0 * q1 = 1 ∨ p1 * q0 - p0 * q1 = -1)
      ∧ 0 ≤ q0 ∧ q0 ≤ maxD ∧ 1 ≤ q1 ∧ q1 ≤ maxD
      ∧ (q0 = 0 → q1 = 1)
      ∧ 0 < d ∧ d < n
      ∧ maxD < q0 + n / d * q1

/-- If the loop state satisfies the invariant but the divisor has reached
zero, the continued fraction has terminated, so the last computed
denominator is the reduced denominator of `x` — impossible while every
kept denominator is at most `maxD < x.den`. -/
theorem loop_divisor_pos (x : ℚ) (maxD p0 q0 p1 q1 n d : ℤ)
    (hden : maxD < (x.den : ℤ)) (hinv : LoopInv x maxD p0 q0 p1 q1 n d) :
    0 < d := by
  obtain ⟨hB1, hB2, hdet, hq0, hq0m, hq1, hq1m, hcase⟩ := hinv
  rcases hcase with ⟨-, -, -, -, -, hd⟩ | ⟨hq1one, hq0q1, hd0, hdn⟩
  · have : (0 : ℤ) < (x.den : ℤ) := by exact_mod_cast x.den_pos
    omega
  · rcases Int.lt_or_le 0 d with hpos | hle
    · exact hpos
    exfalso
    have hdz : d = 0 := by omega
    subst hdz
    have hnum : n ∣ x.num := ⟨p1, by rw [← hB1]; ring⟩
    have hdenn : n ∣ (x.den : ℤ) := ⟨q1, by rw [← hB2]; ring⟩
    have hnpos : 0 < n := by omega
    have h1 : n.natAbs ∣ x.num.natAbs := Int.natAbs_dvd_natAbs.mpr hnum
    have h2 : n.natAbs ∣ x.den := by
      have h := Int.natAbs_dvd_natAbs.mpr hdenn
      simpa using h
    have h3 : n.natAbs ∣ 1 := by
      have hg := Nat.dvd_gcd h1 h2
      have hco : Nat.gcd x.num.natAbs x.den = 1 := x.reduced
      rwa [hco] at hg
    have hn1 : n = 1 := by
      have h4 : n.natAbs = 1 := Nat.dvd_one.mp h3
      omega
    subst hn1
    have : q1 = (x.den : ℤ) := by linarith [hB2]
    omega

theorem limitLoop_post (x : ℚ) (maxD : ℤ) (hmax : 1 ≤ maxD)
    (hden : maxD < (x.den : ℤ)) :
    ∀ fuel : ℕ, ∀ p0 q0 p1 q1 n d : ℤ, d.toNat ≤ fuel →
      LoopInv x maxD p0 q0 p1 q1 n d →
      LoopPost x maxD (limitLoop maxD p0 q0 p1 q1 n d) := by
  intro fuel
  induction fuel with
  | zero =>
    intro p0 q0 p1 q1 n d hfuel hinv
    exfalso
    have := loop_divisor_pos x maxD p0 q0 p1 q1 n d hden hinv
    omega
  | succ f ih =>
    intro p0 q0 p1 q1 n d hfuel hinv
    have hd : 0 < d := loop_divisor_pos x maxD p0 q0 p1 q1 n d hden hinv
    obtain ⟨hB1, hB2, hdet, hq0, hq0m, hq1, hq1m, hcase⟩ := hinv
    rw [limitLoop, dif_pos hd]
    by_cases hbr : maxD < q0 + n / d * q1
    · rw [if_pos hbr]
      have hq1one : 1 ≤ q1 := by
        rcases hcase with ⟨-, hq01, -, hq10, -, -⟩ | ⟨h, -, -, -⟩
        · exfalso
          rw [hq01, hq10] at hbr
          simp at hbr
          omega
        · exact h
      have hq0q1 : q0 = 0 → q1 = 1 := by
        rcases hcase with ⟨-, hq01, -, -, -, -⟩ | ⟨-, h, -, -⟩
        · intro h0
          rw [hq01] at h0
          exact absurd h0 one_ne_zero
        · exact h
      have hdn : d < n := by
        rcases hcase with ⟨-, hq01, -, hq10, -, -⟩ | ⟨-, -, -, h⟩
        · exfalso
          rw [hq01, hq10] at hbr
          simp at hbr
          omega
        · exact h
      exact ⟨hB1, hB2, hdet, hq0, hq0m, hq1one, hq1m, hq0q1, hd, hdn, hbr⟩
    · rw [if_neg hbr]
      have hmod1 : 0 ≤ n - n / d * d := by
        have h := Int.emod_nonneg n (by omega : d ≠ 0)
        rw [Int.emod_def] at h
        linarith
      have hmod2 : n - n / d * d < d := by
        have h := Int.emod_lt_of_pos n hd
        rw [Int.emod_def] at h
        linarith
      refine ih p1 q1 (p0 + n / d * p1) (q0 + n / d * q1) d (n - n / d * d)
        (by omega) ?_
      refine ⟨by rw [← hB1]; ring, by rw [← hB2]; ring, ?_, hq1, hq1m, ?_, by omega, ?_⟩
      · rcases hdet with h | h
        · exact Or.inr (by linear_combination -h)
        · exact Or.inl (by linear_combination -h)
      · rcases hcase with ⟨-, hq01, -, hq10, -, -⟩ | ⟨hq11, -, hd0, hdn⟩
        · rw [hq01, hq10]
          simp
        · have ha : 1 ≤ n / d := by
            rw [Int.le_ediv_iff_mul_le hd]
            omega
          nlinarith
      · refine Or.inr ⟨?_, ?_, hmod1, hmod2⟩
        · rcases hcase with ⟨-, hq01, -, hq10, -, -⟩ | ⟨hq11, -, hd0, hdn⟩
          · rw [hq01, hq10]
            simp
          · have ha : 1 ≤ n / d := by
              rw [Int.le_ediv_iff_mul_le hd]
              omega
            nlinarith
        · intro h0
          rcases hcase with ⟨-, hq01, -, hq10, -, -⟩ | ⟨hq11, -, -, -⟩
          · rw [hq01, hq10]
            simp
          · omega

/-- A rational `r` distinct from `p/q` is at distance at least
`1/(r.den * q)` from it. -/
theorem abs_sub_int_div_ge (r : ℚ) (p q : ℤ) (hq : 0 < q)
    (hne : r ≠ (p : ℚ) / (q : ℚ)) :
    1 / ((r.den : ℚ) * (q : ℚ)) ≤ |r - (p : ℚ) / (q : ℚ)| := by
  have hqQ : (0 : ℚ) < (q : ℚ) := by exact_mod_cast hq
  have hdQ : (0 : ℚ) < (r.den : ℚ) := by exact_mod_cast r.den_pos
  have hdne : ((r.den : ℚ)) ≠ 0 := ne_of_gt hdQ
  have hqne : ((q : ℚ)) ≠ 0 := ne_of_gt hqQ
  have hm : r.num * q - p * r.den ≠ 0 := by
    intro h0
    apply hne
    have hcross : (r.num : ℚ) * q = p * r.den := by
      have hz : (r.num * q : ℤ) = p * r.den := by linarith
      exact_mod_cast hz
    conv_lhs => rw [← Rat.num_div_den r]
    rw [div_eq_div_iff hdne hqne]
    exact hcross
  have hid : r - (p : ℚ) / (q : ℚ)
      = ((r.num * q - p * r.den : ℤ) : ℚ) / ((r.den : ℚ) * (q : ℚ)) := by
    conv_lhs => rw [← Rat.num_div_den r]
    push_cast
    field_simp
    ring
  have hm1 : (1 : ℚ) ≤ |((r.num * q - p * r.den : ℤ) : ℚ)| := by
    rw [← Int.cast_abs]
    exact_mod_cast Int.one_le_abs hm
  rw [hid, abs_div, abs_of_pos (mul_pos hdQ hqQ)]
  gcongr

/-- Two rationals at distance `1/(qlo*qhi)` leave no room strictly between
them for a fraction with denominator below `qlo + qhi`. -/
theorem between_contradiction (r lo hi : ℚ) (plo phi qlo qhi : ℤ)
    (hqlo : 0 < qlo) (hqhi : 0 < qhi)
    (hlo : lo = (plo : ℚ) / (qlo : ℚ)) (hhi : hi = (phi : ℚ) / (qhi : ℚ))
    (hdiff : hi - lo = 1 / ((qlo : ℚ) * (qhi : ℚ)))
    (hr1 : lo < r) (hr2 : r < hi)
    (hrden : (r.den : ℚ) < (qlo : ℚ) + (qhi : ℚ)) : False := by
  have hqloQ : (0 : ℚ) < (qlo : ℚ) := by exact_mod_cast hqlo
  have hqhiQ : (0 : ℚ) < (qhi : ℚ) := by exact_mod_cast hqhi
  have hdQ : (0 : ℚ) < (r.den : ℚ) := by exact_mod_cast r.den_pos
  have h1 := abs_sub_int_div_ge r phi qhi hqhi (by
    intro h0
    rw [← hhi] at h0
    exact absurd h0 (ne_of_lt hr2))
  have h2 := abs_sub_int_div_ge r plo qlo hqlo (by
    intro h0
    rw [← hlo] at h0
    exact absurd h0 (ne_of_gt hr1))
  rw [← hhi, abs_sub_comm, abs_of_pos (by linarith)] at h1
  rw [← hlo, abs_of_pos (by linarith)] at h2
  have hsum : 1 / ((qlo : ℚ) * (qhi : ℚ))
      ≥ 1 / ((r.den : ℚ) * (qhi : ℚ)) + 1 / ((r.den : ℚ) * (qlo : ℚ)) := by
    have hsplit : hi - lo = (hi - r) + (r - lo) := by ring
    linarith
  have hcollect : 1 / ((r.den : ℚ) * (qhi : ℚ)) + 1 / ((r.den : ℚ) * (qlo : ℚ))
      = ((qlo : ℚ) + (qhi : ℚ)) / ((r.den : ℚ) * (qlo : ℚ) * (qhi : ℚ)) := by
    field_simp
    ring
  have hlarge : 1 / ((qlo : ℚ) * (qhi : ℚ))
      < ((qlo : ℚ) + (qhi : ℚ)) / ((r.den : ℚ) * (qlo : ℚ) * (qhi : ℚ)) := by
    rw [div_lt_div_iff₀ (by positivity) (by positivity)]
    nlinarith [mul_pos hqloQ hqhiQ]
  rw [hcollect] at hsum
  linarith

/-- If `x` lies strictly between `lo` and `hi` and `r` does not lie
strictly between them, then `r` is no closer to `x` than the nearer of the
two endpoints. -/
theorem min_dist_le (x lo hi r : ℚ) (h1 : lo < x) (h2 : x < hi)
    (hout : r ≤ lo ∨ hi ≤ r) : min |x - hi| |x - lo| ≤ |x - r| := by
  rcases hout with h | h
  · refine le_trans (min_le_right _ _) ?_
    rw [abs_of_pos (by linarith), abs_of_pos (by linarith)]
    linarith
  · refine le_trans (min_le_left _ _) ?_
    rw [abs_of_neg (by linarith), abs_of_neg (by linarith)]
    linarith

/-- The heart of `limit_denominator` correctness: from the exit state of
the convergent loop, every rational with denominator at most `maxD` is at
least as far from `x` as the nearer of the two candidate bounds. -/
theorem best_approx_core (x : ℚ) (maxD P0 Q0 P1 Q1 N D : ℤ)
    (hmax : 1 ≤ maxD)
    (hB1 : P1 * N + P0 * D = x.num)
    (hB2 : Q1 * N + Q0 * D = (x.den : ℤ))
    (hdet : P1 * Q0 - P0 * Q1 = 1 ∨ P1 * Q0 - P0 * Q1 = -1)
    (hQ0 : 0 ≤ Q0) (hQ0m : Q0 ≤ maxD) (hQ1 : 1 ≤ Q1) (hQ1m : Q1 ≤ maxD)
    (hq0q1 : Q0 = 0 → Q1 = 1) (hD : 0 < D) (hDN : D < N)
    (hbreak : maxD < Q0 + N / D * Q1) :
    ∀ r : ℚ, (r.den : ℤ) ≤ maxD →
      min |x - (P1 : ℚ) / (Q1 : ℚ)|
        |x - ((P0 + (maxD - Q0) / Q1 * P1 : ℤ) : ℚ)
            / ((Q0 + (maxD - Q0) / Q1 * Q1 : ℤ) : ℚ)|
      ≤ |x - r| := by
  intro r hr
  set k : ℤ := (maxD - Q0) / Q1 with hk
  have hkQ1 : k * Q1 ≤ maxD - Q0 := Int.ediv_mul_le _ (by omega)
  have hk1 : maxD - Q0 < (k + 1) * Q1 :=
    Int.lt_ediv_add_one_mul_self _ (by omega)
  have hk0 : 0 ≤ k := Int.ediv_nonneg (by omega) (by omega)
  have ha1 : 1 ≤ N / D := by
    rw [Int.le_ediv_iff_mul_le hD]
    omega
  have hka : k < N / D := by
    have h1 : k * Q1 < N / D * Q1 := by omega
    exact lt_of_mul_lt_mul_right h1 (by omega)
  have hemod : 0 ≤ N - N / D * D := by
    have h := Int.emod_nonneg N (by omega : D ≠ 0)
    rw [Int.emod_def] at h
    linarith
  have hNkD : 0 < N - k * D := by nlinarith
  have hden1 : 1 ≤ Q0 + k * Q1 := by
    rcases Int.lt_or_le 0 Q0 with h | h
    · nlinarith
    · have hQ00 : Q0 = 0 := by omega
      have hQ11 : Q1 = 1 := hq0q1 hQ00
      rw [hQ00, hQ11] at hk
      simp at hk
      rw [hQ00, hQ11, hk]
      omega
  have hden1m : Q0 + k * Q1 ≤ maxD := by omega
  have hdenQ : (0 : ℚ) < (x.den : ℚ) := by exact_mod_cast x.den_pos
  have hQ1Q : (0 : ℚ) < (Q1 : ℚ) := by exact_mod_cast (by omega : (0:ℤ) < Q1)
  have hden1Q : (0 : ℚ) < ((Q0 + k * Q1 : ℤ) : ℚ) := by
    exact_mod_cast (by omega : (0:ℤ) < Q0 + k * Q1)
  have hDQ : (0 : ℚ) < (D : ℚ) := by exact_mod_cast hD
  have hNkDQ : (0 : ℚ) < ((N - k * D : ℤ) : ℚ) := by exact_mod_cast hNkD
  have hnum : (P1 : ℚ) * N + P0 * D = (x.num : ℚ) := by exact_mod_cast congrArg Int.cast hB1
  have hden : (Q1 : ℚ) * N + Q0 * D = (x.den : ℚ) := by exact_mod_cast congrArg Int.cast hB2
  have hdenne : ((Q1 : ℚ) * N + Q0 * D) ≠ 0 := by
    rw [hden]
    exact ne_of_gt hdenQ
  have hxq : x = ((P1 : ℚ) * N + P0 * D) / ((Q1 : ℚ) * N + Q0 * D) := by
    rw [hnum, hden, Rat.num_div_den]
  have hQ1ne : (Q1 : ℚ) ≠ 0 := ne_of_gt hQ1Q
  have hden1Qp : (0 : ℚ) < (Q0 : ℚ) + (k : ℚ) * (Q1 : ℚ) := by
    exact_mod_cast (show (0 : ℤ) < Q0 + k * Q1 by omega)
  have hden1ne : ((Q0 : ℚ) + (k : ℚ) * (Q1 : ℚ)) ≠ 0 := ne_of_gt hden1Qp
  have hdenpos : (0 : ℚ) < (Q1 : ℚ) * (N : ℚ) + (Q0 : ℚ) * (D : ℚ) := by
    rw [hden]; exact hdenQ
  have hNkDQp : (0 : ℚ) < (N : ℚ) - (k : ℚ) * (D : ℚ) := by
    exact_mod_cast hNkD
  have hk1' : maxD < Q0 + k * Q1 + Q1 := by linarith [hk1]
  have hrdenz : (r.den : ℤ) < Q0 + k * Q1 + Q1 := by linarith [hr]
  push_cast
  rcases hdet with he | he
  · have heQ : (P1 : ℚ) * Q0 - P0 * Q1 = 1 := by exact_mod_cast congrArg Int.cast he
    have hI : x - (P1 : ℚ) / (Q1 : ℚ)
        = -(D : ℚ) / (((Q1 : ℚ) * N + Q0 * D) * (Q1 : ℚ)) := by
      rw [hxq]
      field_simp
      linear_combination (-(D : ℚ)) * heQ
    have hII : x - ((P0 : ℚ) + (k : ℚ) * P1) / ((Q0 : ℚ) + (k : ℚ) * Q1)
        = ((N : ℚ) - (k : ℚ) * D)
          / (((Q1 : ℚ) * N + Q0 * D) * ((Q0 : ℚ) + (k : ℚ) * Q1)) := by
      rw [hxq]
      field_simp
      linear_combination ((N : ℚ) - (k : ℚ) * D) * heQ
    have hIII : (P1 : ℚ) / (Q1 : ℚ)
          - ((P0 : ℚ) + (k : ℚ) * P1) / ((Q0 : ℚ) + (k : ℚ) * Q1)
        = 1 / (((Q0 : ℚ) + (k : ℚ) * Q1) * (Q1 : ℚ)) := by
      field_simp
      linear_combination ((Q0 : ℚ) * Q1 + (k : ℚ) * Q1 ^ 2) * heQ
    have hb1x : ((P0 : ℚ) + (k : ℚ) * P1) / ((Q0 : ℚ) + (k : ℚ) * Q1) < x := by
      have hpos : (0 : ℚ) < ((N : ℚ) - (k : ℚ) * D)
          / (((Q1 : ℚ) * N + Q0 * D) * ((Q0 : ℚ) + (k : ℚ) * Q1)) :=
        div_pos hNkDQp (mul_pos hdenpos hden1Qp)
      linarith [hII]
    have hxb2 : x < (P1 : ℚ) / (Q1 : ℚ) := by
      have hneg : -(D : ℚ) / (((Q1 : ℚ) * N + Q0 * D) * (Q1 : ℚ)) < 0 :=
        div_neg_of_neg_of_pos (by linarith [hDQ]) (mul_pos hdenpos hQ1Q)
      linarith [hI]
    by_cases hout : r ≤ ((P0 : ℚ) + (k : ℚ) * P1) / ((Q0 : ℚ) + (k : ℚ) * Q1)
        ∨ (P1 : ℚ) / (Q1 : ℚ) ≤ r
    · exact min_dist_le x (((P0 : ℚ) + (k : ℚ) * P1) / ((Q0 : ℚ) + (k : ℚ) * Q1))
        ((P1 : ℚ) / (Q1 : ℚ)) r hb1x hxb2 hout
    · exfalso
      push_neg at hout
      obtain ⟨h1, h2⟩ := hout
      refine between_contradiction r
        (((P0 : ℚ) + (k : ℚ) * P1) / ((Q0 : ℚ) + (k : ℚ) * Q1))
        ((P1 : ℚ) / (Q1 : ℚ)) (P0 + k * P1) P1 (Q0 + k * Q1) Q1
        (by omega) (by omega) (by push_cast; ring) rfl ?_ h1 h2 ?_
      · rw [hIII]
        push_cast
        ring
      · exact_mod_cast hrdenz
  · have heQ : (P1 : ℚ) * Q0 - P0 * Q1 = -1 := by exact_mod_cast congrArg Int.cast he
    have hI : x - (P1 : ℚ) / (Q1 : ℚ)
        = (D : ℚ) / (((Q1 : ℚ) * N + Q0 * D) * (Q1 : ℚ)) := by
      rw [hxq]
      field_simp
      linear_combination (-(D : ℚ)) * heQ
    have hII : x - ((P0 : ℚ) + (k : ℚ) * P1) / ((Q0 : ℚ) + (k : ℚ) * Q1)
        = -((N : ℚ) - (k : ℚ) * D)
          / (((Q1 : ℚ) * N + Q0 * D) * ((Q0 : ℚ) + (k : ℚ) * Q1)) := by
      rw [hxq]
      field_simp
      linear_combination ((N : ℚ) - (k : ℚ) * D) * heQ
    have hIII : ((P0 : ℚ) + (k : ℚ) * P1) / ((Q0 : ℚ) + (k : ℚ) * Q1)
          - (P1 : ℚ) / (Q1 : ℚ)
        = 1 / ((Q1 : ℚ) * ((Q0 : ℚ) + (k : ℚ) * Q1)) := by
      field_simp
      linear_combination (-((Q0 : ℚ) * Q1) - (k : ℚ) * Q1 ^ 2) * heQ
    have hb2x : (P1 : ℚ) / (Q1 : ℚ) < x := by
      have hpos : (0 : ℚ) < (D : ℚ) / (((Q1 : ℚ) * N + Q0 * D) * (Q1 : ℚ)) :=
        div_pos hDQ (mul_pos hdenpos hQ1Q)
      linarith [hI]
    have hxb1 : x < ((P0 : ℚ) + (k : ℚ) * P1) / ((Q0 : ℚ) + (k : ℚ) * Q1) := by
      have hneg : -((N : ℚ) - (k : ℚ) * D)
          / (((Q1 : ℚ) * N + Q0 * D) * ((Q0 : ℚ) + (k : ℚ) * Q1)) < 0 :=
        div_neg_of_neg_of_pos (by linarith [hNkDQp]) (mul_pos hdenpos hden1Qp)
      linarith [hII]
    by_cases hout : r ≤ (P1 : ℚ) / (Q1 : ℚ)
        ∨ ((P0 : ℚ) + (k : ℚ) * P1) / ((Q0 : ℚ) + (k : ℚ) * Q1) ≤ r
    · rw [min_comm]
      exact min_dist_le x ((P1 : ℚ) / (Q1 : ℚ))
        (((P0 : ℚ) + (k : ℚ) * P1) / ((Q0 : ℚ) + (k : ℚ) * Q1)) r hb2x hxb1 hout
    · exfalso
      push_neg at hout
      obtain ⟨h1, h2⟩ := hout
      refine between_contradiction r ((P1 : ℚ) / (Q1 : ℚ))
        (((P0 : ℚ) + (k : ℚ) * P1) / ((Q0 : ℚ) + (k : ℚ) * Q1))
        P1 (P0 + k * P1) Q1 (Q0 + k * Q1)
        (by omega) (by omega) rfl (by push_cast; ring) ?_ h1 h2 ?_
      · rw [hIII]
        push_cast
        ring
      · exact_mod_cast (show (r.den : ℤ) < Q1 + (Q0 + k * Q1) by linarith [hrdenz])

/-- The reduced denominator of the rational `a / b` is at most `b` when
`b > 0`. -/
theorem den_le_of_pos (a b : ℤ) (hb : 0 < b) :
    (((a : ℚ) / (b : ℚ)).den : ℤ) ≤ b := by
  have hdvd : ((((a : ℚ) / (b : ℚ)).den : ℤ)) ∣ b := by
    rw [← Rat.divInt_eq_div]
    exact Rat.den_dvd a b
  exact Int.le_of_dvd hb hdvd

/-- The interpolated denominator `q0 + (maxD - q0) / q1 * q1` computed by
`limit_denominator` after the loop is positive and at most `maxD`. -/
theorem limit_k_facts (maxD Q0 Q1 : ℤ) (hmax : 1 ≤ maxD)
    (hQ0 : 0 ≤ Q0) (hQ0m : Q0 ≤ maxD) (hQ1 : 1 ≤ Q1)
    (hq0q1 : Q0 = 0 → Q1 = 1) :
    1 ≤ Q0 + (maxD - Q0) / Q1 * Q1 ∧ Q0 + (maxD - Q0) / Q1 * Q1 ≤ maxD := by
  have hkQ1 : (maxD - Q0) / Q1 * Q1 ≤ maxD - Q0 := Int.ediv_mul_le _ (by omega)
  have hk0 : 0 ≤ (maxD - Q0) / Q1 := Int.ediv_nonneg (by omega) (by omega)
  constructor
  · rcases Int.lt_or_le 0 Q0 with h | h
    · nlinarith
    · have hQ00 : Q0 = 0 := by omega
      have hQ11 : Q1 = 1 := hq0q1 hQ00
      rw [hQ00, hQ11]
      simpa using hmax
  · linarith

/-- C9: `Fraction(total).limit_denominator(100)` (modelled by `limitDen`
with `maxD = 100`) returns a rational whose denominator is at most `maxD`,
which is at least as close to the input as every rational with denominator
at most `maxD`; and when the input itself has denominator at most `maxD`
(such as 0.5) the input is returned unchanged. -/
theorem limit_denominator_best (x : ℚ) (maxD : ℤ) (hmax : 1 ≤ maxD) :
    ((limitDen x maxD).den : ℤ) ≤ maxD
    ∧ (∀ r : ℚ, (r.den : ℤ) ≤ maxD → |x - limitDen x maxD| ≤ |x - r|)
    ∧ ((x.den : ℤ) ≤ maxD → limitDen x maxD = x) := by
  by_cases hxd : (x.den : ℤ) ≤ maxD
  · have hld : limitDen x maxD = x := by
      unfold limitDen
      rw [if_neg (by omega), if_pos hxd]
    refine ⟨by rw [hld]; exact hxd, ?_, fun _ => hld⟩
    intro r hr
    rw [hld]
    simpa using abs_nonneg (x - r)
  · push_neg at hxd
    have hinv0 : LoopInv x maxD 0 1 1 0 x.num (x.den : ℤ) :=
      ⟨by ring, by ring, Or.inl (by norm_num), by omega, by omega, by omega, by omega,
        Or.inl ⟨rfl, rfl, rfl, rfl, rfl, rfl⟩⟩
    have hpost := limitLoop_post x maxD hmax hxd ((x.den : ℤ)).toNat 0 1 1 0 x.num
      (x.den : ℤ) le_rfl hinv0
    rcases hres : limitLoop maxD 0 1 1 0 x.num (x.den : ℤ) with ⟨P0, Q0, P1, Q1, N, D⟩
    rw [hres] at hpost
    obtain ⟨hB1, hB2, hdet, hq0, hq0m, hq1, hq1m, hq0q1, hD, hDN, hbr⟩ := hpost
    have hcore := best_approx_core x maxD P0 Q0 P1 Q1 N D hmax hB1 hB2 hdet hq0 hq0m
      hq1 hq1m hq0q1 hD hDN hbr
    obtain ⟨hden1, hden1m⟩ := limit_k_facts maxD Q0 Q1 hmax hq0 hq0m hq1 hq0q1
    have hld : limitDen x maxD
        = if |((P1 : ℤ) : ℚ) / ((Q1 : ℤ) : ℚ) - x|
              ≤ |((P0 + (maxD - Q0) / Q1 * P1 : ℤ) : ℚ)
                  / ((Q0 + (maxD - Q0) / Q1 * Q1 : ℤ) : ℚ) - x|
          then ((P1 : ℤ) : ℚ) / ((Q1 : ℤ) : ℚ)
          else ((P0 + (maxD - Q0) / Q1 * P1 : ℤ) : ℚ)
              / ((Q0 + (maxD - Q0) / Q1 * Q1 : ℤ) : ℚ) := by
      unfold limitDen
      rw [if_neg (by omega), if_neg (by omega), hres]
    rw [hld]
    by_cases hcmp : |((P1 : ℤ) : ℚ) / ((Q1 : ℤ) : ℚ) - x|
        ≤ |((P0 + (maxD - Q0) / Q1 * P1 : ℤ) : ℚ)
            / ((Q0 + (maxD - Q0) / Q1 * Q1 : ℤ) : ℚ) - x|
    · rw [if_pos hcmp]
      refine ⟨le_trans (den_le_of_pos P1 Q1 (by omega)) hq1m, ?_, ?_⟩
      · intro r hr
        have hmin := hcore r hr
        have habs : |x - ((P1 : ℤ) : ℚ) / ((Q1 : ℤ) : ℚ)|
            ≤ |x - ((P0 + (maxD - Q0) / Q1 * P1 : ℤ) : ℚ)
                / ((Q0 + (maxD - Q0) / Q1 * Q1 : ℤ) : ℚ)| := by
          rw [abs_sub_comm x, abs_sub_comm x]
          exact hcmp
        have heq := min_eq_left habs
        linarith [hmin, heq]
      · intro h
        exact absurd h (by omega)
    · rw [if_neg hcmp]
      refine ⟨le_trans (den_le_of_pos (P0 + (maxD - Q0) / Q1 * P1)
        (Q0 + (maxD - Q0) / Q1 * Q1) (by linarith [hden1])) hden1m, ?_, ?_⟩
      · intro r hr
        have hmin := hcore r hr
        push_neg at hcmp
        have habs : |x - ((P0 + (maxD - Q0) / Q1 * P1 : ℤ) : ℚ)
              / ((Q0 + (maxD - Q0) / Q1 * Q1 : ℤ) : ℚ)|
            ≤ |x - ((P1 : ℤ) : ℚ) / ((Q1 : ℤ) : ℚ)| := by
          rw [abs_sub_comm x, abs_sub_comm x]
          exact le_of_lt hcmp
        have heq := min_eq_right habs
        linarith [hmin, heq]
      · intro h
        exact absurd h (by omega)

/-- Witness for `limit_denominator_best` at the input 1/2 with
`maxD = 100`: the hypotheses hold and the value 1/2 is returned exactly. -/
theorem limit_denominator_best_witness :
    (1 : ℤ) ≤ 100
      ∧ ((Rat.mk' 1 2 (by decide) (by decide) : ℚ).den : ℤ) ≤ 100
      ∧ limitDen (Rat.mk' 1 2 (by decide) (by decide)) 100
          = Rat.mk' 1 2 (by decide) (by decide) :=
  ⟨by decide, by decide,
    (limit_denominator_best (Rat.mk' 1 2 (by decide) (by decide)) 100 (by decide)).2.2
      (by decide)⟩

/-- Model of the pulp solver status surfaced by `LpStatus[prob.status]`:
Not Solved, Optimal, Infeasible, Unbounded, Undefined. -/
inductive LpStatusM where
  | notSolved
  | optimal
  | infeasible
  | unbounded
  | undef

/-- Lines 43–53 of `fractional_clique_cover`: after `prob.solve()` the
status is only printed (`print("Status -", LpStatus[prob.status])`); the
code then reads `lp_xs[item].varValue` for every subset key, sums the
values, and applies `Fraction.from_float(total).limit_denominator(100)`
with no status check of any kind.  `vals` maps each subset key to the
solver's value for its variable. -/
def fccPost (G : GraphM) (status : LpStatusM) (vals : List ℕ → ℚ) : ℚ :=
  limitDen (((keysOf G).map vals).sum) 100

/-- Lines 111–118 of `shannon_entropy`: the status is only printed; the
code then reads the last subset key's `varValue` and applies
`limit_denominator(100)` with no status check of any kind. -/
def shannonPost (G : GraphM) (status : LpStatusM) (vals : List ℕ → ℚ) : ℚ :=
  limitDen (vals (fullKey G)) 100

/-- C6: the claim that value extraction and rational post-processing are
guarded behind an optimal-status check is false: both post-solve phases
ignore the solver status entirely — their result is the same for every
status as for `optimal` — and under `infeasible` status the extraction
still reads the solver values (the result depends on them). -/
theorem post_solve_extraction_unguarded :
    (∀ s : LpStatusM, ∀ vals : List ℕ → ℚ,
        fccPost pathGraph3 s vals = fccPost pathGraph3 LpStatusM.optimal vals
        ∧ shannonPost pathGraph3 s vals = shannonPost pathGraph3 LpStatusM.optimal vals)
    ∧ shannonPost pathGraph3 LpStatusM.infeasible (fun _ => 0)
        ≠ shannonPost pathGraph3 LpStatusM.infeasible (fun _ => 1) :=
  ⟨fun _ _ => ⟨rfl, rfl⟩, by decide⟩

/-- Graph over machine integers as built by `load` (line 167), where the
parsed edge endpoints are arbitrary `int`s, not validated vertex indices. -/
structure GraphZ where
  nodes : List ℤ
  edges : List (ℤ × ℤ)
deriving DecidableEq

/-- `nx.Graph` node insertion: a repeated node is ignored, a new node is
appended. -/
def addNode (g : GraphZ) (v : ℤ) : GraphZ :=
  if v ∈ g.nodes then g else ⟨g.nodes ++ [v], g.edges⟩

/-- `nx.Graph.add_edge(a, b)`: both endpoints are added as nodes if absent,
then the (undirected) edge is recorded if not already present.  networkx
performs no validation: out-of-range endpoints and self-loops are accepted
silently. -/
def addEdgeZ (g : GraphZ) (a b : ℤ) : GraphZ :=
  let g1 := addNode (addNode g a) b
  if (a, b) ∈ g1.edges ∨ (b, a) ∈ g1.edges then g1
  else ⟨g1.nodes, g1.edges ++ [(a, b)]⟩

/-- Input to `load` (lines 161–181): the file is missing (raising
`IOError`), or it has a first line whose `int(line)` parse either fails
(`none`, raising `ValueError`) or yields `some n`, and a second line whose
`;`-split entries each have two `,`-fields whose `int` parses likewise
either fail or yield values.  A missing second field (`IndexError`) is
modelled the same way as a failed parse, since both raise and are caught
by the same `except Exception`. -/
inductive FileInput where
  | missing
  | content (line1 : Option ℤ) (edges : List (Option ℤ × Option ℤ))

/-- One `G.add_edge(int(...), int(...))` iteration of `load`'s edge loop:
once an exception has occurred (`none`) nothing further happens; otherwise
a failed parse of either endpoint raises, and a successful parse calls
`add_edge` with no validation. -/
def loadStep (acc : Option GraphZ) (e : Option ℤ × Option ℤ) : Option GraphZ :=
  match acc with
  | none => none
  | some g =>
    match e with
    | (some a, some b) => some (addEdgeZ g a b)
    | _ => none

/-- Model of `load` (lines 161–181): a missing file or any raising parse
makes the whole call return `None`; otherwise the nodes `0..n-1` are added
(`range` of a negative count is empty, as in Python) and every parsed edge
is installed via `add_edge`. -/
def loadModel : FileInput → Option GraphZ
  | FileInput.missing => none
  | FileInput.content line1 edges =>
    match line1 with
    | none => none
    | some n =>
      edges.foldl loadStep (some ⟨(List.range n.toNat).map (fun i => (i : ℤ)), []⟩)

/-- C7: the claim that `load` rejects out-of-range or self-loop edges is
false: the file content "3\n0,0" loads successfully and the returned graph
contains the self-loop (0, 0), and "3\n0,5" loads successfully with the
out-of-range endpoint 5 silently added as a node; only a missing file or a
malformed parse produces a load failure. -/
theorem load_accepts_invalid_edges :
    loadModel (FileInput.content (some 3) [(some 0, some 0)])
        = some ⟨[0, 1, 2], [(0, 0)]⟩
    ∧ loadModel (FileInput.content (some 3) [(some 0, some 5)])
        = some ⟨[0, 1, 2, 5], [(0, 5)]⟩
    ∧ loadModel FileInput.missing = none
    ∧ loadModel (FileInput.content none [(some 0, some 1)]) = none := by
  refine ⟨?_, ?_, rfl, rfl⟩ <;> decide

/-- The failure paths of `load`: a missing file, an unparseable node
count, or an edge entry with an unparseable endpoint. -/
def parseFails : FileInput → Prop
  | FileInput.missing => True
  | FileInput.content line1 edges =>
      line1 = none ∨ ∃ e ∈ edges, e.1 = none ∨ e.2 = none

/-- Folding the edge loop from an already-raised state stays raised. -/
theorem loadFold_none (edges : List (Option ℤ × Option ℤ)) :
    edges.foldl loadStep none = none := by
  induction edges with
  | nil => rfl
  | cons e es ih => simpa [loadStep] using ih

/-- Folding the edge loop over a list containing a bad entry raises. -/
theorem loadFold_bad (edges : List (Option ℤ × Option ℤ)) (g : GraphZ)
    (h : ∃ e ∈ edges, e.1 = none ∨ e.2 = none) :
    edges.foldl loadStep (some g) = none := by
  induction edges generalizing g with
  | nil => simp at h
  | cons e es ih =>
    rcases h with ⟨e', he', hbad⟩
    rcases List.mem_cons.mp he' with heq | hmem
    · rw [heq] at hbad
      have hstep : loadStep (some g) e = none := by
        rcases e with ⟨a, b⟩
        dsimp only at hbad
        rcases hbad with h1 | h1
        · subst h1
          rfl
        · subst h1
          cases a <;> rfl
      rw [List.foldl_cons, hstep]
      exact loadFold_none es
    · cases hstep : loadStep (some g) e with
      | none =>
        rw [List.foldl_cons, hstep]
        exact loadFold_none es
      | some g2 =>
        rw [List.foldl_cons, hstep]
        exact ih g2 ⟨e', hmem, hbad⟩

/-- On every failure path `load` returns `None`. -/
theorem loadModel_eq_none_of_fails (f : FileInput) (h : parseFails f) :
    loadModel f = none := by
  cases f with
  | missing => rfl
  | content line1 edges =>
    cases line1 with
    | none => rfl
    | some n =>
      rcases h with h | h
      · exact absurd h (by simp)
      · exact loadFold_bad edges _ h

/-- The mutable state of `main` (lines 207–243): the current graph `G` and
the result sentinels `fcc` and `shannon_ent` (initialised to −1). -/
structure MainState where
  graph : Option GraphZ
  fcc : ℚ
  shannonEnt : ℚ

/-- A menu action of `main`: choice 1 (new graph, with the interactively
built graph), choice 2 (load, with the chosen file), or choice 3
(calculate, with the two results the LP solves produce). -/
inductive ActionM where
  | newGraph (g : GraphZ)
  | loadGraph (f : FileInput)
  | calculate (r1 r2 : ℚ)

/-- One dispatch of the `main` menu (lines 224–243): choice 1 installs the
new graph and resets the sentinels; choice 2 installs `load(filename)`'s
return value unconditionally — whatever it is — and resets the sentinels;
choice 3 stores the results of `calculate(G)`. -/
def mainStep (s : MainState) (a : ActionM) : MainState :=
  match a with
  | ActionM.newGraph g => ⟨some g, -1, -1⟩
  | ActionM.loadGraph f => ⟨loadModel f, -1, -1⟩
  | ActionM.calculate r1 r2 => ⟨s.graph, r1, r2⟩

/-- The argument `calculate(G)` receives in the choice-3 branch (line 240):
the current graph variable, whatever it holds. -/
def calculateArg (s : MainState) : Option GraphZ := s.graph

/-- C10: on every failure path `load` returns `None`; the main loop
installs that return value as the current graph unconditionally, so after
a failed load the current graph is `None` whatever it was before, and a
subsequent Calculate operates on `None` rather than on a graph. -/
theorem load_failure_then_calculate (s : MainState) (f : FileInput)
    (h : parseFails f) :
    loadModel f = none
    ∧ (mainStep s (ActionM.loadGraph f)).graph = none
    ∧ calculateArg (mainStep s (ActionM.loadGraph f)) = none := by
  have hln := loadModel_eq_none_of_fails f h
  exact ⟨hln, hln, hln⟩

/-- Witness for `load_failure_then_calculate`: a missing file, loaded while
a one-vertex graph is current, leaves `None` as the graph Calculate sees. -/
theorem load_failure_then_calculate_witness :
    parseFails FileInput.missing
    ∧ (loadModel FileInput.missing = none
        ∧ (mainStep ⟨some ⟨[0], []⟩, 5, 5⟩
            (ActionM.loadGraph FileInput.missing)).graph = none
        ∧ calculateArg (mainStep ⟨some ⟨[0], []⟩, 5, 5⟩
            (ActionM.loadGraph FileInput.missing)) = none) :=
  ⟨trivial, load_failure_then_calculate ⟨some ⟨[0], []⟩, 5, 5⟩ FileInput.missing trivial⟩

end Optimisation
